import Mathlib

/-!
Verification of the qio effect-system core: the instruction algebra
(src/src/main/Instructions.ts), the combinator layer (src/src/main/IO.ts),
the Ref cell (src/src/main/Ref.ts), and the trampolined evaluator, race
coordination, once-sharing and the runtime callback guard, which are
described by the specification (the evaluator sources are not part of the
staged files, so those parts are modelled from the spec's words).

Values and errors are embedded with a single type `α` (the source is
untyped: both channels are `unknown`); the environment has type `ρ`.
User-supplied functions may throw, which is embedded as returning
`Except α β`: `.error t` is a synchronous `throw t`.
-/

/-- The behaviours of the `cmp` registration functions that IO.ts actually
passes to the `C` (Computation) source constructor:
`(env, rej, res) => res(value)` for `IO.of`, `(env, rej) => rej(error)` for
`IO.reject`, `(env1, rej, res) => res(fn(env1))` for `IO.access` and
`IO.environment`, and the no-op registration `RETURN_NOOP` for `IO.never`. -/
inductive Register (ρ α : Type) where
  | resNow : α → Register ρ α
  | rejNow : α → Register ρ α
  | resEnv : (ρ → α) → Register ρ α
  | noopReg : Register ρ α

set_option genSizeOfSpec false in
/-- The closed instruction set of src/src/main/Instructions.ts (tags
Constant, Reject, Resume, ResumeM, Map, Chain, Async, Never, Catch,
Suspend), together with the operator nodes IO.ts builds that are composite
in the spec's algebra: `Timeout` (an Async registering a scheduler delay),
`Race`, `Zip`, `Once`, and the `provide` wrapper of IO.ts line 203. -/
inductive Instruction (ρ α : Type) where
  | const : α → Instruction ρ α
  | rejectI : α → Instruction ρ α
  | resumeI : (α → Except α α) → Instruction ρ α
  | resumeM : (α → Except α (Instruction ρ α)) → Instruction ρ α
  | mapI : Instruction ρ α → (α → Except α α) → Instruction ρ α
  | chainI : Instruction ρ α → (α → Except α (Instruction ρ α)) → Instruction ρ α
  | catchI : Instruction ρ α → (α → Except α (Instruction ρ α)) → Instruction ρ α
  | asyncI : Register ρ α → Instruction ρ α
  | neverI : Instruction ρ α
  | suspendI : (Unit → Except α (Instruction ρ α)) → Instruction ρ α
  | timeoutI : α → Nat → Instruction ρ α
  | raceI : Instruction ρ α → Instruction ρ α → Instruction ρ α
  | zipI : Instruction ρ α → Instruction ρ α → Instruction ρ α
  | onceI : Instruction ρ α → Instruction ρ α
  | provideI : Instruction ρ α → ρ → Instruction ρ α

/-- `IO.of(value)` (IO.ts line 132): `IO.to(C((env, rej, res) => res(value)))`,
a Computation (Async) node whose registration synchronously resolves. -/
def ioOf {ρ α : Type} (v : α) : Instruction ρ α :=
  .asyncI (.resNow v)

/-- `IO.reject(error)` (IO.ts line 139): `IO.to(C((env, rej) => rej(error)))`. -/
def ioReject {ρ α : Type} (e : α) : Instruction ρ α :=
  .asyncI (.rejNow e)

/-- `IO.never()` (IO.ts line 125): `IO.to(C(RETURN_NOOP))`. -/
def ioNever {ρ α : Type} : Instruction ρ α :=
  .asyncI .noopReg

/-- `IO.access(fn)` (IO.ts line 58): `C((env1, rej, res) => res(fn(env1)))`. -/
def ioAccess {ρ α : Type} (f : ρ → α) : Instruction ρ α :=
  .asyncI (.resEnv f)

/-- `io.map(ab)` (IO.ts line 187): `new Map(this.io, ab)`. -/
def ioMap {ρ α : Type} (i : Instruction ρ α) (f : α → Except α α) : Instruction ρ α :=
  .mapI i f

/-- `io.chain(ab)` (IO.ts line 166): `new Chain(this.io, ab)`. -/
def ioChain {ρ α : Type} (i : Instruction ρ α) (f : α → Except α (Instruction ρ α)) :
    Instruction ρ α :=
  .chainI i f

/-- `io.catch(ab)` (IO.ts line 159): `new Catch(this.io, ab)`. -/
def ioCatch {ρ α : Type} (i : Instruction ρ α) (h : α → Except α (Instruction ρ α)) :
    Instruction ρ α :=
  .catchI i h

/-- `IO.timeout(value, duration)` (IO.ts line 146): `new Timeout(duration, value)`. -/
def ioTimeout {ρ α : Type} (v : α) (d : Nat) : Instruction ρ α :=
  .timeoutI v d

/-- `io.race(b)` (IO.ts line 209): `new Race(this.io, b)`. -/
def ioRace {ρ α : Type} (a b : Instruction ρ α) : Instruction ρ α :=
  .raceI a b

/-- `io.provide(env)` (IO.ts line 202): `C((env1, rej, res) => this.io.fork(env, rej, res))`:
a wrapper that forks the inner effect with the supplied env, ignoring the
outer one. -/
def ioProvide {ρ α : Type} (i : Instruction ρ α) (r : ρ) : Instruction ρ α :=
  .provideI i r

/-- `io.once()` (IO.ts line 194): `IO.of(IO.to(new Once(this)))` — an effect
that immediately succeeds with the shared `Once` wrapper of the receiver. -/
def ioOnce {ρ α : Type} (e : Instruction ρ α) : Instruction ρ (Instruction ρ α) :=
  ioOf (Instruction.onceI e)

/-- Modelled from the spec: the error discipline of the evaluator (§4.2,
§7 — the runtime sources are not in the staged files). The result of a
user-supplied function becomes the next instruction; a synchronously thrown
value is "captured and converted to Reject(err)". -/
def runUser {ρ α : Type} : Except α (Instruction ρ α) → Instruction ρ α
  | .ok i => i
  | .error t => .rejectI t

/-- The evaluator's current slot: "either an instruction to dispatch or a
value to consume" (spec §4.2), with a failing error value as the third form
used while unwinding towards a Catch frame. -/
inductive Cur (ρ α : Type) where
  | instr : Instruction ρ α → Cur ρ α
  | val : α → Cur ρ α
  | err : α → Cur ρ α

/-- The continuation-stack frames of the evaluator (spec §4.2): Map-frames,
Chain-frames and Catch-frames, plus the saved outer environment pushed by
the `provide` wrapper when it forks the inner effect with its own env. -/
inductive Frame (ρ α : Type) where
  | mapF : (α → Except α α) → Frame ρ α
  | chainF : (α → Except α (Instruction ρ α)) → Frame ρ α
  | catchF : (α → Except α (Instruction ρ α)) → Frame ρ α
  | envF : ρ → Frame ρ α

/-- A fiber state: current environment, current slot, continuation stack. -/
structure MState (ρ α : Type) where
  env : ρ
  cur : Cur ρ α
  stk : List (Frame ρ α)

/-- The observable outcome of one fiber: top-level success, top-level
failure, suspension beyond the synchronous turn (Async registrations that
yield: Never, Timeout, Race, Zip, Once), or a dispatch the spec gives no
rule for (Resume/ResumeM, which §4.2 does not list). -/
inductive Outcome (α : Type) where
  | succ : α → Outcome α
  | fail : α → Outcome α
  | pending : Outcome α
  | stuck : Outcome α

/-- One evaluator transition: continue with a new state or halt. -/
inductive StepRes (ρ α : Type) where
  | cont : MState ρ α → StepRes ρ α
  | halt : Outcome α → StepRes ρ α

/-- Modelled from the spec: one dispatch of the trampolined evaluator loop
(§4.2 dispatch rules — the runtime sources are not in the staged files).
Constant/success pops the top frame (Chain applies, Catch is discarded on
the success path, Map sets current = Constant(f(v))); Reject unwinds to the
nearest Catch frame; Map/Chain/Catch push a frame and descend; Suspend
forces its thunk; a Computation (Async) registration that synchronously
calls `res`/`rej` resumes the loop with that value or error; registrations
that only yield (Never, Timeout, the Race/Zip/Once coordinators) suspend
the fiber for this synchronous turn. -/
def step {ρ α : Type} : MState ρ α → StepRes ρ α
  | ⟨env, .instr i, stk⟩ =>
    match i with
    | .const v => .cont ⟨env, .val v, stk⟩
    | .rejectI e => .cont ⟨env, .err e, stk⟩
    | .resumeI _ => .halt .stuck
    | .resumeM _ => .halt .stuck
    | .mapI inner f => .cont ⟨env, .instr inner, .mapF f :: stk⟩
    | .chainI inner f => .cont ⟨env, .instr inner, .chainF f :: stk⟩
    | .catchI inner h => .cont ⟨env, .instr inner, .catchF h :: stk⟩
    | .asyncI (.resNow v) => .cont ⟨env, .val v, stk⟩
    | .asyncI (.rejNow e) => .cont ⟨env, .err e, stk⟩
    | .asyncI (.resEnv f) => .cont ⟨env, .val (f env), stk⟩
    | .asyncI .noopReg => .halt .pending
    | .neverI => .halt .pending
    | .suspendI t => .cont ⟨env, .instr (runUser (t ())), stk⟩
    | .timeoutI _ _ => .halt .pending
    | .raceI _ _ => .halt .pending
    | .zipI _ _ => .halt .pending
    | .onceI _ => .halt .pending
    | .provideI inner r => .cont ⟨r, .instr inner, .envF env :: stk⟩
  | ⟨_, .val v, []⟩ => .halt (.succ v)
  | ⟨env, .val v, fr :: stk⟩ =>
    match fr with
    | .mapF f => .cont ⟨env, .instr (runUser (Except.map Instruction.const (f v))), stk⟩
    | .chainF f => .cont ⟨env, .instr (runUser (f v)), stk⟩
    | .catchF _ => .cont ⟨env, .val v, stk⟩
    | .envF r => .cont ⟨r, .val v, stk⟩
  | ⟨_, .err e, []⟩ => .halt (.fail e)
  | ⟨env, .err e, fr :: stk⟩ =>
    match fr with
    | .mapF _ => .cont ⟨env, .err e, stk⟩
    | .chainF _ => .cont ⟨env, .err e, stk⟩
    | .catchF h => .cont ⟨env, .instr (runUser (h e)), stk⟩
    | .envF r => .cont ⟨r, .err e, stk⟩

/-- Iterate the evaluator loop for a bounded number of dispatches. -/
def stepN {ρ α : Type} : Nat → StepRes ρ α → StepRes ρ α
  | 0, r => r
  | _ + 1, .halt o => .halt o
  | n + 1, .cont st => stepN n (step st)

/-- The state a top-level `fork`/`execute` creates: the effect's root
instruction with an empty continuation stack. -/
def initSt {ρ α : Type} (env : ρ) (i : Instruction ρ α) : MState ρ α :=
  ⟨env, .instr i, []⟩

/-- The fiber, continued from `st`, halts with outcome `o`. -/
def EvalsSt {ρ α : Type} (st : MState ρ α) (o : Outcome α) : Prop :=
  ∃ k, stepN k (.cont st) = .halt o

/-- Launching instruction `i` with environment `env` halts with outcome `o`. -/
def Evals {ρ α : Type} (env : ρ) (i : Instruction ρ α) (o : Outcome α) : Prop :=
  EvalsSt (initSt env i) o

/-- The loop, continued from `st`, passes through the state `st2`. -/
def Reaches {ρ α : Type} (st st2 : MState ρ α) : Prop :=
  ∃ k, stepN k (.cont st) = .cont st2

theorem stepN_halt {ρ α : Type} (k : Nat) (o : Outcome α) :
    stepN (ρ := ρ) k (.halt o) = .halt o := by
  cases k <;> rfl

theorem stepN_add {ρ α : Type} (m n : Nat) (r : StepRes ρ α) :
    stepN (m + n) r = stepN n (stepN m r) := by
  induction m generalizing r with
  | zero =>
    rw [Nat.zero_add]
    rfl
  | succ m ih =>
    cases r with
    | halt o => simp [stepN, stepN_halt]
    | cont st =>
      have h1 : m + 1 + n = (m + n) + 1 := by omega
      rw [h1]
      simp only [stepN]
      exact ih (step st)

theorem halt_unique {ρ α : Type} {r : StepRes ρ α} {k k2 : Nat} {o o2 : Outcome α}
    (h1 : stepN k r = .halt o) (h2 : stepN k2 r = .halt o2) : o = o2 := by
  rcases Nat.le_total k k2 with hle | hle
  · obtain ⟨d, rfl⟩ := Nat.le.dest hle
    rw [stepN_add, h1, stepN_halt] at h2
    cases h2
    rfl
  · obtain ⟨d, rfl⟩ := Nat.le.dest hle
    rw [stepN_add, h2, stepN_halt] at h1
    cases h1
    rfl

theorem evalsSt_cont {ρ α : Type} {st st2 : MState ρ α} (h : step st = .cont st2)
    (o : Outcome α) : EvalsSt st o ↔ EvalsSt st2 o := by
  constructor
  · rintro ⟨k, hk⟩
    cases k with
    | zero => cases hk
    | succ k =>
      refine ⟨k, ?_⟩
      simpa [stepN, h] using hk
  · rintro ⟨k, hk⟩
    exact ⟨k + 1, by simp [stepN, h, hk]⟩

theorem reaches_refl {ρ α : Type} (st : MState ρ α) : Reaches st st :=
  ⟨0, rfl⟩

theorem reaches_step {ρ α : Type} {st st2 : MState ρ α} (h : step st = .cont st2) :
    Reaches st st2 :=
  ⟨1, by simp [stepN, h]⟩

theorem reaches_trans {ρ α : Type} {st st2 st3 : MState ρ α}
    (h1 : Reaches st st2) (h2 : Reaches st2 st3) : Reaches st st3 := by
  obtain ⟨k1, hk1⟩ := h1
  obtain ⟨k2, hk2⟩ := h2
  exact ⟨k1 + k2, by rw [stepN_add, hk1, hk2]⟩

theorem reaches_evalsSt {ρ α : Type} {st st2 : MState ρ α} {o : Outcome α}
    (h1 : Reaches st st2) (h2 : EvalsSt st2 o) : EvalsSt st o := by
  obtain ⟨k1, hk1⟩ := h1
  obtain ⟨k2, hk2⟩ := h2
  exact ⟨k1 + k2, by rw [stepN_add, hk1, hk2]⟩

theorem step_cont_append {ρ α : Type} {env env2 : ρ} {c c2 : Cur ρ α}
    {fs fs2 : List (Frame ρ α)} (s : List (Frame ρ α))
    (h : step ⟨env, c, fs⟩ = .cont ⟨env2, c2, fs2⟩) :
    step ⟨env, c, fs ++ s⟩ = .cont ⟨env2, c2, fs2 ++ s⟩ := by
  cases c with
  | instr i =>
    cases i <;>
      first
        | (simp [step] at h
           done)
        | (rename_i r
           cases r <;>
             first
               | (simp [step] at h
                  done)
               | (simp only [step, StepRes.cont.injEq, MState.mk.injEq] at h ⊢
                  obtain ⟨rfl, rfl, rfl⟩ := h
                  simp))
        | (simp only [step, StepRes.cont.injEq, MState.mk.injEq] at h ⊢
           obtain ⟨rfl, rfl, rfl⟩ := h
           simp)
  | val v =>
    cases fs with
    | nil => simp [step] at h
    | cons fr t =>
      cases fr <;>
        simp only [step, StepRes.cont.injEq, MState.mk.injEq] at h <;>
        obtain ⟨h1, h2, h3⟩ := h <;>
        subst h1 <;> subst h2 <;> subst h3 <;> simp [step]
  | err e =>
    cases fs with
    | nil => simp [step] at h
    | cons fr t =>
      cases fr <;>
        simp only [step, StepRes.cont.injEq, MState.mk.injEq] at h <;>
        obtain ⟨h1, h2, h3⟩ := h <;>
        subst h1 <;> subst h2 <;> subst h3 <;> simp [step]

theorem step_halt_cases {ρ α : Type} {env : ρ} {c : Cur ρ α} {fs : List (Frame ρ α)}
    {o : Outcome α} (h : step ⟨env, c, fs⟩ = .halt o) :
    (∃ v, c = .val v ∧ fs = [] ∧ o = .succ v) ∨
      (∃ e, c = .err e ∧ fs = [] ∧ o = .fail e) ∨
      ((o = .pending ∨ o = .stuck) ∧
        ∀ s : List (Frame ρ α), step ⟨env, c, fs ++ s⟩ = .halt o) := by
  cases c with
  | instr i =>
    refine Or.inr (Or.inr ?_)
    cases i <;>
      first
        | (simp [step] at h
           done)
        | (rename_i r
           cases r <;>
             first
               | (simp [step] at h
                  done)
               | (simp only [step, StepRes.halt.injEq] at h
                  subst h
                  exact ⟨by simp, fun s => by simp [step]⟩))
        | (simp only [step, StepRes.halt.injEq] at h
           subst h
           exact ⟨by simp, fun s => by simp [step]⟩)
  | val v =>
    cases fs with
    | nil =>
      simp only [step, StepRes.halt.injEq] at h
      exact Or.inl ⟨v, rfl, rfl, h.symm⟩
    | cons fr t => cases fr <;> simp [step] at h
  | err e =>
    cases fs with
    | nil =>
      simp only [step, StepRes.halt.injEq] at h
      exact Or.inr (Or.inl ⟨e, rfl, rfl, h.symm⟩)
    | cons fr t => cases fr <;> simp [step] at h

theorem stepN_cont_append {ρ α : Type} {env env2 : ρ} {c c2 : Cur ρ α}
    {fs fs2 : List (Frame ρ α)} (s : List (Frame ρ α)) {k : Nat}
    (h : stepN k (.cont ⟨env, c, fs⟩) = .cont ⟨env2, c2, fs2⟩) :
    stepN k (.cont ⟨env, c, fs ++ s⟩) = .cont ⟨env2, c2, fs2 ++ s⟩ := by
  induction k generalizing env c fs with
  | zero =>
    simp only [stepN, StepRes.cont.injEq, MState.mk.injEq] at h ⊢
    obtain ⟨rfl, rfl, rfl⟩ := h
    simp
  | succ k ih =>
    simp only [stepN] at h ⊢
    cases hs : step ⟨env, c, fs⟩ with
    | halt o =>
      rw [hs, stepN_halt] at h
      cases h
    | cont st2 =>
      obtain ⟨e3, c3, f3⟩ := st2
      rw [hs] at h
      rw [step_cont_append s hs]
      exact ih h

theorem stepN_halt_of_append {ρ α : Type} {env : ρ} {c : Cur ρ α}
    {fs s : List (Frame ρ α)} {k : Nat} {o : Outcome α}
    (h : stepN k (.cont ⟨env, c, fs ++ s⟩) = .halt o) :
    ∃ j o2, stepN j (.cont ⟨env, c, fs⟩) = .halt o2 := by
  induction k generalizing env c fs with
  | zero => simp [stepN] at h
  | succ k ih =>
    simp only [stepN] at h
    cases hs : step ⟨env, c, fs⟩ with
    | halt o2 => exact ⟨1, o2, by simp [stepN, hs]⟩
    | cont st2 =>
      obtain ⟨e3, c3, f3⟩ := st2
      rw [step_cont_append s hs] at h
      obtain ⟨j, o2, hj⟩ := ih h
      exact ⟨j + 1, o2, by simp [stepN, hs, hj]⟩

theorem stepN_halt_envF {ρ α : Type} {env : ρ} {c : Cur ρ α} {fs : List (Frame ρ α)}
    {k : Nat} {o : Outcome α} (r : ρ)
    (h : stepN k (.cont ⟨env, c, fs⟩) = .halt o) :
    ∃ j, stepN j (.cont ⟨env, c, fs ++ [Frame.envF r]⟩) = .halt o := by
  induction k generalizing env c fs with
  | zero => simp [stepN] at h
  | succ k ih =>
    simp only [stepN] at h
    cases hs : step ⟨env, c, fs⟩ with
    | cont st2 =>
      obtain ⟨e3, c3, f3⟩ := st2
      rw [hs] at h
      obtain ⟨j, hj⟩ := ih h
      exact ⟨j + 1, by simp [stepN, step_cont_append _ hs, hj]⟩
    | halt o2 =>
      rw [hs, stepN_halt] at h
      injection h with h
      subst h
      rcases step_halt_cases hs with ⟨v, rfl, rfl, rfl⟩ | ⟨e, rfl, rfl, rfl⟩ | ⟨_, hall⟩
      · exact ⟨2, rfl⟩
      · exact ⟨2, rfl⟩
      · exact ⟨1, by simp [stepN, hall [Frame.envF r]]⟩

theorem stepN_succ_append {ρ α : Type} {env : ρ} {c : Cur ρ α} {fs : List (Frame ρ α)}
    {k : Nat} {v : α} (s : List (Frame ρ α))
    (h : stepN k (.cont ⟨env, c, fs⟩) = .halt (.succ v)) :
    ∃ j env2, stepN j (.cont ⟨env, c, fs ++ s⟩) = .cont ⟨env2, .val v, s⟩ := by
  induction k generalizing env c fs with
  | zero => simp [stepN] at h
  | succ k ih =>
    simp only [stepN] at h
    cases hs : step ⟨env, c, fs⟩ with
    | cont st2 =>
      obtain ⟨e3, c3, f3⟩ := st2
      rw [hs] at h
      obtain ⟨j, env2, hj⟩ := ih h
      exact ⟨j + 1, env2, by simp [stepN, step_cont_append _ hs, hj]⟩
    | halt o2 =>
      rw [hs, stepN_halt] at h
      injection h with h
      subst h
      rcases step_halt_cases hs with ⟨v2, rfl, rfl, hv⟩ | ⟨e, rfl, rfl, he⟩ | ⟨ho, _⟩
      · injection hv with hv
        subst hv
        exact ⟨0, env, rfl⟩
      · exact Outcome.noConfusion he
      · rcases ho with ho | ho <;> exact Outcome.noConfusion ho

theorem stepN_fail_append {ρ α : Type} {env : ρ} {c : Cur ρ α} {fs : List (Frame ρ α)}
    {k : Nat} {e : α} (s : List (Frame ρ α))
    (h : stepN k (.cont ⟨env, c, fs⟩) = .halt (.fail e)) :
    ∃ j env2, stepN j (.cont ⟨env, c, fs ++ s⟩) = .cont ⟨env2, .err e, s⟩ := by
  induction k generalizing env c fs with
  | zero => simp [stepN] at h
  | succ k ih =>
    simp only [stepN] at h
    cases hs : step ⟨env, c, fs⟩ with
    | cont st2 =>
      obtain ⟨e3, c3, f3⟩ := st2
      rw [hs] at h
      obtain ⟨j, env2, hj⟩ := ih h
      exact ⟨j + 1, env2, by simp [stepN, step_cont_append _ hs, hj]⟩
    | halt o2 =>
      rw [hs, stepN_halt] at h
      injection h with h
      subst h
      rcases step_halt_cases hs with ⟨v2, rfl, rfl, hv⟩ | ⟨e2, rfl, rfl, he⟩ | ⟨ho, _⟩
      · exact Outcome.noConfusion hv
      · injection he with he
        subst he
        exact ⟨0, env, rfl⟩
      · rcases ho with ho | ho <;> exact Outcome.noConfusion ho

/-- Claim C4: monad left identity. For every value `a` and every function `f`
from values to effects, `of(a).chain(f)` has the same observable outcome
(same success, same failure, or same non-termination) as `f(a)`, for every
environment. -/
theorem c4_left_identity (ρ α : Type) (env : ρ) (a : α) (f : α → Instruction ρ α)
    (o : Outcome α) :
    Evals env (ioChain (ioOf a) (fun x => Except.ok (f x))) o ↔ Evals env (f a) o := by
  have h1 : step (⟨env, .instr (ioChain (ioOf a) (fun x => Except.ok (f x))), []⟩ : MState ρ α) =
      .cont ⟨env, .instr (ioOf a), [.chainF (fun x => Except.ok (f x))]⟩ := rfl
  have h2 : step (⟨env, .instr (ioOf a), [.chainF (fun x => Except.ok (f x))]⟩ : MState ρ α) =
      .cont ⟨env, .val a, [.chainF (fun x => Except.ok (f x))]⟩ := rfl
  have h3 : step (⟨env, .val a, [.chainF (fun x => Except.ok (f x))]⟩ : MState ρ α) =
      .cont ⟨env, .instr (f a), []⟩ := rfl
  exact (evalsSt_cont h1 o).trans ((evalsSt_cont h2 o).trans (evalsSt_cont h3 o))

/-- Claim C6: catch recovers on failure. For every error `e` and handler `h`,
`reject(e).catch(h)` has the same observable outcome as `h(e)`: the handler
is invoked with exactly the rejected error and its effect's result becomes
the combined effect's result. -/
theorem c6_catch_recovers (ρ α : Type) (env : ρ) (e : α) (h : α → Instruction ρ α)
    (o : Outcome α) :
    Evals env (ioCatch (ioReject e) (fun x => Except.ok (h x))) o ↔ Evals env (h e) o := by
  have h1 : step (⟨env, .instr (ioCatch (ioReject e) (fun x => Except.ok (h x))), []⟩ :
      MState ρ α) =
      .cont ⟨env, .instr (ioReject e), [.catchF (fun x => Except.ok (h x))]⟩ := rfl
  have h2 : step (⟨env, .instr (ioReject e), [.catchF (fun x => Except.ok (h x))]⟩ :
      MState ρ α) =
      .cont ⟨env, .err e, [.catchF (fun x => Except.ok (h x))]⟩ := rfl
  have h3 : step (⟨env, .err e, [.catchF (fun x => Except.ok (h x))]⟩ : MState ρ α) =
      .cont ⟨env, .instr (h e), []⟩ := rfl
  exact (evalsSt_cont h1 o).trans ((evalsSt_cont h2 o).trans (evalsSt_cont h3 o))

/-- Claim C9 as stated is false on the code: at the concrete value 42,
`IO.of(42)` (IO.ts line 132) builds `C((env, rej, res) => res(42))` — a
Computation/Async registration node — and not the `Constant(42)` instruction
of src/src/main/Instructions.ts. -/
theorem c9_of_constant_counterexample :
    (ioOf 42 : Instruction Unit Nat) ≠ Instruction.const 42 := by
  simp [ioOf]

/-- Claim C9 (amended): `of(v)` constructs the Computation (Async) node whose
registration synchronously invokes the success callback with `v`; the
evaluator resolves it with `v` without any further scheduler round-trip in
the model, but the node built is an Async registration, not `Constant(v)`. -/
theorem c9_of_builds_computation (ρ α : Type) (env : ρ) (v : α) :
    (ioOf v : Instruction ρ α) = Instruction.asyncI (Register.resNow v) ∧
      Evals env (ioOf v) (Outcome.succ v) :=
  ⟨rfl, ⟨2, rfl⟩⟩

/-- The chain of the stack-safety scenario: `of(0).chain(n => of(n + 1))`
iterated; `chainBuild n` chains `n` links onto `of(0)` and should succeed
with `n`. -/
def chainBuild : Nat → Instruction Unit Nat
  | 0 => ioOf 0
  | n + 1 => ioChain (chainBuild n) (fun k => Except.ok (ioOf (k + 1)))

theorem chainBuild_reaches (n : Nat) (s : List (Frame Unit Nat)) :
    Reaches ⟨(), .instr (chainBuild n), s⟩ ⟨(), .val n, s⟩ := by
  induction n generalizing s with
  | zero => exact reaches_step rfl
  | succ n ih =>
    have h1 : step (⟨(), .instr (chainBuild (n + 1)), s⟩ : MState Unit Nat) =
        .cont ⟨(), .instr (chainBuild n), .chainF (fun k => Except.ok (ioOf (k + 1))) :: s⟩ :=
      rfl
    have h2 : step (⟨(), .val n, .chainF (fun k => Except.ok (ioOf (k + 1))) :: s⟩ :
        MState Unit Nat) = .cont ⟨(), .instr (ioOf (n + 1)), s⟩ := rfl
    have h3 : step (⟨(), .instr (ioOf (n + 1)), s⟩ : MState Unit Nat) =
        .cont ⟨(), .val (n + 1), s⟩ := rfl
    exact reaches_trans (reaches_step h1)
      (reaches_trans (ih _) (reaches_trans (reaches_step h2) (reaches_step h3)))

/-- Claim C1: stack safety. The chain of length 10⁶ built as
`of(0).chain(n => of(n + 1))` repeated 10⁶ times halts under the evaluator
loop — which iterates a step function over an explicit continuation stack,
with no native recursion into itself — and succeeds with 1000000. -/
theorem c1_stack_safety : Evals () (chainBuild 1000000) (Outcome.succ 1000000) :=
  reaches_evalsSt (chainBuild_reaches 1000000 []) ⟨1, rfl⟩

/-- Claim C3: exceptions thrown by the user function of a Map node are
captured into typed failures. If `e` succeeds with `v` and `f` throws `t`
at `v`, then `e.map(f)` fails with `t` — the failure, not the success,
reaches the top level — and a subsequent catch recovers: its handler is
invoked with exactly `t` and determines the outcome. -/
theorem c3_map_captures_throw (ρ α : Type) (env : ρ) (e : Instruction ρ α) (v t : α)
    (f : α → Except α α) (hev : Evals env e (Outcome.succ v)) (hf : f v = Except.error t) :
    Evals env (ioMap e f) (Outcome.fail t) ∧
      ∀ g : α → α,
        Evals env (ioCatch (ioMap e f) (fun x => Except.ok (ioOf (g x))))
          (Outcome.succ (g t)) := by
  obtain ⟨k, hk⟩ := hev
  have hk2 : stepN k (.cont ⟨env, .instr e, []⟩) = .halt (.succ v) := hk
  constructor
  · have h1 : step (⟨env, .instr (ioMap e f), []⟩ : MState ρ α) =
        .cont ⟨env, .instr e, [.mapF f]⟩ := rfl
    obtain ⟨j, env2, hj⟩ := stepN_succ_append [Frame.mapF f] hk2
    have h2 : step (⟨env2, .val v, [.mapF f]⟩ : MState ρ α) =
        .cont ⟨env2, .instr (.rejectI t), []⟩ := by
      simp [step, hf, runUser, Except.map]
    have h3 : step (⟨env2, .instr (.rejectI t), []⟩ : MState ρ α) =
        .cont ⟨env2, .err t, []⟩ := rfl
    refine (evalsSt_cont h1 _).mpr (reaches_evalsSt ⟨j, hj⟩ ?_)
    exact (evalsSt_cont h2 _).mpr ((evalsSt_cont h3 _).mpr ⟨1, rfl⟩)
  · intro g
    have h1 : step (⟨env, .instr (ioCatch (ioMap e f) (fun x => Except.ok (ioOf (g x)))),
        []⟩ : MState ρ α) =
        .cont ⟨env, .instr (ioMap e f), [.catchF (fun x => Except.ok (ioOf (g x)))]⟩ := rfl
    have h2 : step (⟨env, .instr (ioMap e f),
        [.catchF (fun x => Except.ok (ioOf (g x)))]⟩ : MState ρ α) =
        .cont ⟨env, .instr e, [.mapF f, .catchF (fun x => Except.ok (ioOf (g x)))]⟩ := rfl
    obtain ⟨j, env2, hj⟩ :=
      stepN_succ_append [Frame.mapF f, Frame.catchF (fun x => Except.ok (ioOf (g x)))] hk2
    have h3 : step (⟨env2, .val v,
        [.mapF f, .catchF (fun x => Except.ok (ioOf (g x)))]⟩ : MState ρ α) =
        .cont ⟨env2, .instr (.rejectI t), [.catchF (fun x => Except.ok (ioOf (g x)))]⟩ := by
      simp [step, hf, runUser, Except.map]
    have h4 : step (⟨env2, .instr (.rejectI t),
        [.catchF (fun x => Except.ok (ioOf (g x)))]⟩ : MState ρ α) =
        .cont ⟨env2, .err t, [.catchF (fun x => Except.ok (ioOf (g x)))]⟩ := rfl
    have h5 : step (⟨env2, .err t,
        [.catchF (fun x => Except.ok (ioOf (g x)))]⟩ : MState ρ α) =
        .cont ⟨env2, .instr (ioOf (g t)), []⟩ := rfl
    have h6 : step (⟨env2, .instr (ioOf (g t)), []⟩ : MState ρ α) =
        .cont ⟨env2, .val (g t), []⟩ := rfl
    refine (evalsSt_cont h1 _).mpr ((evalsSt_cont h2 _).mpr (reaches_evalsSt ⟨j, hj⟩ ?_))
    exact (evalsSt_cont h3 _).mpr ((evalsSt_cont h4 _).mpr ((evalsSt_cont h5 _).mpr
      ((evalsSt_cont h6 _).mpr ⟨1, rfl⟩)))

/-- Witness for C3 at the spec's own example: `of(10).map(() => { throw
new Error('FAILURE') })` produces the typed failure carrying the thrown
error. -/
theorem c3_map_captures_throw_witness :
    Evals () (ioMap (ioOf "10") (fun _ => Except.error "Error: FAILURE"))
      (Outcome.fail "Error: FAILURE") :=
  (c3_map_captures_throw Unit String () (ioOf "10") "10" "Error: FAILURE"
    (fun _ => Except.error "Error: FAILURE") ⟨2, rfl⟩ rfl).1

/-- Claim C7: `provide` replaces the environment wholesale. Forking
`e.provide(r)` under any outer environment `r2` has the same observable
outcome as forking `e` under `r`: the inner effect runs with the supplied
env and the outer env is ignored entirely. -/
theorem c7_provide_env (ρ α : Type) (r r2 : ρ) (i : Instruction ρ α) (o : Outcome α) :
    Evals r2 (ioProvide i r) o ↔ Evals r i o := by
  have h1 : step (⟨r2, .instr (ioProvide i r), []⟩ : MState ρ α) =
      .cont ⟨r, .instr i, [.envF r2]⟩ := rfl
  refine (evalsSt_cont h1 o).trans ?_
  constructor
  · rintro ⟨k, hk⟩
    have hk2 : stepN k (.cont ⟨r, .instr i,
        ([] : List (Frame ρ α)) ++ [Frame.envF r2]⟩) = .halt o := hk
    obtain ⟨j, o2, hj⟩ := stepN_halt_of_append hk2
    obtain ⟨j2, hj2⟩ := stepN_halt_envF r2 hj
    have ho : o = o2 := halt_unique hk2 hj2
    exact ho ▸ ⟨j, hj⟩
  · rintro ⟨k, hk⟩
    obtain ⟨j, hj⟩ := stepN_halt_envF r2 hk
    exact ⟨j, hj⟩

/-- An invocation arriving at a launched fiber's top level: a success
callback invocation, a failure callback invocation, or a cancellation of
the fiber's token. Quantifying over all attempt lists covers every effect,
including Async registrations that misbehave and invoke their callbacks
repeatedly. -/
inductive Attempt (α : Type) where
  | res : α → Attempt α
  | rej : α → Attempt α
  | cancel : Attempt α

/-- The per-fiber record the runtime keeps for its terminal-callback guard:
whether a terminal callback has already been delivered, whether the token
was cancelled, and the list of terminal callbacks actually delivered to the
caller, in order. -/
structure FiberGuard (α : Type) where
  isDone : Bool
  isCancelled : Bool
  delivered : List (Except α α)

/-- Modelled from the spec: the runtime's guard (§4.2 Async: "Exactly one
of the two callbacks may fire; subsequent invocations are ignored"; §4.2
Cancellation: a cancelled fiber ignores every further resumption and never
invokes onSuccess or onFailure; cancellation is idempotent). The runtime
sources are not among the staged files. -/
def guardStep {α : Type} (st : FiberGuard α) : Attempt α → FiberGuard α
  | .res a =>
    if st.isDone || st.isCancelled then st
    else ⟨true, st.isCancelled, st.delivered ++ [Except.ok a]⟩
  | .rej e =>
    if st.isDone || st.isCancelled then st
    else ⟨true, st.isCancelled, st.delivered ++ [Except.error e]⟩
  | .cancel => ⟨st.isDone, true, st.delivered⟩

/-- One top-level launch processes its attempts starting from a fresh guard. -/
def runFiber {α : Type} (l : List (Attempt α)) : FiberGuard α :=
  l.foldl guardStep ⟨false, false, []⟩

theorem guardStep_inv {α : Type} {st : FiberGuard α}
    (h1 : st.isDone = false → st.delivered = []) (h2 : st.delivered.length ≤ 1)
    (a : Attempt α) :
    ((guardStep st a).isDone = false → (guardStep st a).delivered = []) ∧
      (guardStep st a).delivered.length ≤ 1 := by
  obtain ⟨d, c, dl⟩ := st
  cases a <;> simp [guardStep] <;> first | (split <;> simp_all) | simp_all

theorem runFiber_aux {α : Type} (l : List (Attempt α)) (st : FiberGuard α)
    (h1 : st.isDone = false → st.delivered = []) (h2 : st.delivered.length ≤ 1) :
    (l.foldl guardStep st).delivered.length ≤ 1 := by
  induction l generalizing st with
  | nil => simpa [List.foldl] using h2
  | cons a l ih =>
    obtain ⟨g1, g2⟩ := guardStep_inv h1 h2 a
    simpa [List.foldl] using ih _ g1 g2

theorem guard_cancelled_frozen {α : Type} (l : List (Attempt α)) (st : FiberGuard α)
    (h : st.isCancelled = true) : l.foldl guardStep st = st := by
  induction l generalizing st with
  | nil => rfl
  | cons a l ih =>
    have hstep : guardStep st a = st := by
      obtain ⟨d, c, dl⟩ := st
      subst h
      cases a <;> simp [guardStep]
    rw [List.foldl_cons, hstep]
    exact ih st h

/-- Claim C2: at-most-one terminal callback per launch. For every attempt
sequence a launched effect can generate, the runtime guard delivers at most
one terminal callback (so the success and failure callbacks never both
fire, and none fires twice); and after the token is cancelled no further
callback is ever delivered — whatever was delivered strictly before the
cancellation is all that is ever observed. -/
theorem c2_at_most_one_terminal (α : Type) (l l1 l2 : List (Attempt α)) :
    (runFiber l).delivered.length ≤ 1 ∧
      (runFiber (l1 ++ Attempt.cancel :: l2)).delivered = (runFiber l1).delivered := by
  constructor
  · exact runFiber_aux l _ (fun _ => rfl) (by simp)
  · rw [runFiber, List.foldl_append, List.foldl_cons]
    rw [guard_cancelled_frozen l2 _ rfl]
    rfl

/-- Modelled from the spec: the logical-time completion descriptor of a
child effect under the test scheduler (the Timeout and Computation source
classes are not among the staged files). `timeout(v, d)` registers a
scheduler delay and resolves with `v` at logical time `d`; a Computation
whose registration resolves or rejects synchronously is dispatched on the
next logical turn (time 1, as the repository's timeline tests record);
other nodes are treated as never completing for the purposes of the race
coordinator. -/
def tcomplete {ρ α : Type} : Instruction ρ α → Option (Nat × Except α α)
  | .timeoutI v d => some (d, Except.ok v)
  | .asyncI (.resNow v) => some (1, Except.ok v)
  | .asyncI (.rejNow e) => some (1, Except.error e)
  | _ => none

/-- A completion event of one of the two raced children, stamped with its
logical time. -/
inductive RaceEv (α : Type) where
  | childA : Nat → Except α α → RaceEv α
  | childB : Nat → Except α α → RaceEv α

/-- The scheduler's timeline for the two children: completion events in
logical-time order; on a tie, child A's task runs first because the parent
enqueues the children in argument order. -/
def raceTimeline {α : Type} :
    Option (Nat × Except α α) → Option (Nat × Except α α) → List (RaceEv α)
  | none, none => []
  | some (t, x), none => [.childA t x]
  | none, some (t, x) => [.childB t x]
  | some (ta, xa), some (tb, xb) =>
    if ta ≤ tb then [.childA ta xa, .childB tb xb] else [.childB tb xb, .childA ta xa]

/-- The race coordinator's state: the shared completion latch, the
cancellation flags of the two children's tokens, and the terminal events
actually delivered to the parent. -/
structure RaceSt (α : Type) where
  latchDone : Bool
  cancA : Bool
  cancB : Bool
  delivered : List (Nat × Except α α)

/-- Modelled from the spec: the race coordination (§4.3: "runs both; the
first to complete (success or failure) wins, the other is cancelled") —
the Race operator class is not among the staged files. A completion event
of a cancelled child never fires (its scheduled task was removed); the
first completion through the latch is delivered and cancels the sibling's
token. -/
def raceStep {α : Type} (st : RaceSt α) : RaceEv α → RaceSt α
  | .childA t x =>
    if st.cancA || st.latchDone then st
    else ⟨true, st.cancA, true, st.delivered ++ [(t, x)]⟩
  | .childB t x =>
    if st.cancB || st.latchDone then st
    else ⟨true, true, st.cancB, st.delivered ++ [(t, x)]⟩

/-- Run `a.race(b)`: drain the whole scheduler timeline (advancing logical
time past every child's completion) and report the delivered terminals. -/
def raceRun {ρ α : Type} (a b : Instruction ρ α) : List (Nat × Except α α) :=
  ((raceTimeline (tcomplete a) (tcomplete b)).foldl raceStep ⟨false, false, false, []⟩).delivered

/-- The first terminal event of the two descriptors (ties go to child A). -/
def firstEvent {α : Type} :
    Option (Nat × Except α α) → Option (Nat × Except α α) → List (Nat × Except α α)
  | none, none => []
  | some x, none => [x]
  | none, some x => [x]
  | some (ta, xa), some (tb, xb) => if ta ≤ tb then [(ta, xa)] else [(tb, xb)]

/-- Claim C5: race delivers exactly the first terminal event (success or
failure) of either child and the cancelled loser never delivers; in
particular `timeout('A', 1000).race(timeout('B', 2000))` resolves to 'A'
at logical time 1000, and although the timeline is advanced past 2000,
'B' is never delivered. -/
theorem c5_race_first_wins (ρ α : Type) (a b : Instruction ρ α) :
    raceRun a b = firstEvent (tcomplete a) (tcomplete b) ∧
      raceRun (ioTimeout "A" 1000 : Instruction Unit String) (ioTimeout "B" 2000) =
        [(1000, Except.ok "A")] ∧
      (2000, Except.ok "B") ∉
        raceRun (ioTimeout "A" 1000 : Instruction Unit String) (ioTimeout "B" 2000) := by
  refine ⟨?_, rfl, by intro hmem; rw [show raceRun (ioTimeout "A" 1000 : Instruction Unit String) (ioTimeout "B" 2000) = [(1000, Except.ok "A")] from rfl] at hmem; simp at hmem⟩
  rw [raceRun]
  rcases tcomplete a with _ | ⟨ta, xa⟩ <;> rcases tcomplete b with _ | ⟨tb, xb⟩
  · rfl
  · rfl
  · rfl
  · by_cases hab : ta ≤ tb <;> simp [raceTimeline, raceStep, firstEvent, hab]

/-- Modelled from the spec: `FIO.uio(thunk)` (the FIO internals are not
among the staged files) wraps a thunk as a single-instruction effect, so
one dispatch step of the cooperative scheduler runs the entire thunk. A
Ref operation is therefore one atomic transition: a function from the cell
state to (new cell state, result). `Ref.read` (Ref.ts line 16):
`FIO.uio(() => this.value)`. -/
def refRead {σ : Type} : σ → σ × σ := fun s => (s, s)

/-- `Ref.set(a)` (Ref.ts line 19): `FIO.uio(() => (this.value = a))` — one
dispatch step that writes `a` and returns the assigned value. -/
def refSet {σ : Type} (a : σ) : σ → σ × σ := fun _ => (a, a)

/-- `Ref.update(ab)` (Ref.ts line 22): `FIO.uio(() => (this.value = ab(this.value)))`
— one dispatch step that reads the old value, writes `ab(old)` and returns
the written value. -/
def refUpdate {σ : Type} (ab : σ → σ) : σ → σ × σ := fun s => (ab s, ab s)

/-- Cooperative execution of single-instruction effects over the shared
cell: the scheduler dispatches one whole operation per step, so a list of
operations is a possible interleaving of the fiber graph's dispatches. -/
def opsRun {σ : Type} (l : List (σ → σ × σ)) (s : σ) : σ :=
  l.foldl (fun st op => (op st).1) s

/-- Claim C8: Ref operations are single-dispatch-step effects. `read`,
`set` and `update` are each one atomic transition, `update` reading the
old value and writing `ab(old)` within that one step; consequently, in
every interleaving of an `update` with the other dispatches of the fiber
graph, `ab` is applied between two scheduler steps — no effect can
observe a state between `update`'s read and its write. -/
theorem c8_ref_atomic (σ : Type) (ab : σ → σ) (a s : σ) (l1 l2 : List (σ → σ × σ)) :
    refRead s = (s, s) ∧ refSet a s = (a, a) ∧ refUpdate ab s = (ab s, ab s) ∧
      opsRun (l1 ++ refUpdate ab :: l2) s = opsRun l2 (ab (opsRun l1 s)) := by
  refine ⟨rfl, rfl, rfl, ?_⟩
  simp [opsRun, List.foldl_append, refUpdate]

/-- An event arriving at a `Once` wrapper: a fork of the shared inner
effect, or the completion of the single underlying execution with a result
(per the spec's design note, failures are cached and shared too). -/
inductive OnceEv (α : Type) where
  | fork : OnceEv α
  | complete : Except α α → OnceEv α

/-- The sharing state of a `Once` wrapper: not yet forked, underlying
execution in flight with some number of attached subscribers, or finished
with a cached result. -/
inductive OnceStatus (α : Type) where
  | idle : OnceStatus α
  | waiting : Nat → OnceStatus α
  | done : Except α α → OnceStatus α

/-- A `Once` cell together with the observables of interest: how many times
the underlying effect was started, and every result delivered to a
subscriber, in order. -/
structure OnceCell (α : Type) where
  status : OnceStatus α
  starts : Nat
  delivered : List (Except α α)

/-- Modelled from the spec: the `Once` operator (§4.3 — the Once operator
class is not among the staged files): "the first fork starts the work and
stores subscribers; subsequent forks either attach as subscribers (if
pending) or immediately receive the cached result"; on completion every
stored subscriber receives the one shared result. -/
def onceStep {α : Type} (c : OnceCell α) : OnceEv α → OnceCell α
  | .fork =>
    match c.status with
    | .idle => ⟨.waiting 1, c.starts + 1, c.delivered⟩
    | .waiting n => ⟨.waiting (n + 1), c.starts, c.delivered⟩
    | .done x => ⟨.done x, c.starts, c.delivered ++ [x]⟩
  | .complete x =>
    match c.status with
    | .waiting n => ⟨.done x, c.starts, c.delivered ++ List.replicate n x⟩
    | s => ⟨s, c.starts, c.delivered⟩

/-- A `Once` wrapper processes its event sequence from the fresh state. -/
def onceRun {α : Type} (l : List (OnceEv α)) : OnceCell α :=
  l.foldl onceStep ⟨.idle, 0, []⟩

/-- The sharing invariant of a `Once` cell: before the first fork nothing
has started and nothing was delivered; while in flight exactly one
execution has started and nothing was delivered yet; once done, exactly
one execution has started and every delivered result is the cached one. -/
def OnceInv {α : Type} (c : OnceCell α) : Prop :=
  (c.status = .idle → c.starts = 0 ∧ c.delivered = []) ∧
    (∀ n, c.status = .waiting n → c.starts = 1 ∧ c.delivered = []) ∧
    (∀ x, c.status = .done x → c.starts = 1 ∧ ∀ y ∈ c.delivered, y = x)

theorem onceStep_inv {α : Type} {c : OnceCell α} (h : OnceInv c) (ev : OnceEv α) :
    OnceInv (onceStep c ev) := by
  obtain ⟨c0, st, dl⟩ := c
  obtain ⟨h1, h2, h3⟩ := h
  cases ev with
  | fork =>
    cases c0 with
    | idle =>
      obtain ⟨hs, hd⟩ := h1 rfl
      subst hs; subst hd
      simp [onceStep, OnceInv]
    | waiting n =>
      obtain ⟨hs, hd⟩ := h2 n rfl
      subst hs; subst hd
      simp [onceStep, OnceInv]
    | done x =>
      obtain ⟨hs, hd⟩ := h3 x rfl
      subst hs
      refine ⟨by simp [onceStep], by simp [onceStep], fun y hy => ?_⟩
      simp [onceStep] at hy
      subst hy
      refine ⟨by simp [onceStep], fun z hz => ?_⟩
      simp [onceStep] at hz
      rcases hz with hz | rfl
      · exact hd z hz
      · rfl
  | complete x =>
    cases c0 with
    | idle =>
      obtain ⟨hs, hd⟩ := h1 rfl
      subst hs; subst hd
      simp [onceStep, OnceInv]
    | waiting n =>
      obtain ⟨hs, hd⟩ := h2 n rfl
      subst hs; subst hd
      refine ⟨by simp [onceStep], by simp [onceStep], fun y hy => ?_⟩
      simp [onceStep] at hy
      subst hy
      refine ⟨by simp [onceStep], fun z hz => ?_⟩
      simp [onceStep, List.mem_replicate] at hz
      exact hz.2
    | done y =>
      obtain ⟨hs, hd⟩ := h3 y rfl
      subst hs
      refine ⟨by simp [onceStep], by simp [onceStep], fun z hz => ?_⟩
      simp [onceStep] at hz
      subst hz
      refine ⟨by simp [onceStep], fun w hw => ?_⟩
      simp [onceStep] at hw
      exact hd w hw

theorem onceRun_inv_aux {α : Type} (l : List (OnceEv α)) (c : OnceCell α)
    (h : OnceInv c) : OnceInv (l.foldl onceStep c) := by
  induction l generalizing c with
  | nil => exact h
  | cons ev l ih =>
    rw [List.foldl_cons]
    exact ih _ (onceStep_inv h ev)

theorem onceRun_inv {α : Type} (l : List (OnceEv α)) : OnceInv (onceRun l) := by
  refine onceRun_inv_aux l _ ?_
  refine ⟨fun _ => ⟨rfl, rfl⟩, fun n hn => ?_, fun x hx => ?_⟩
  · exact absurd hn (by simp)
  · exact absurd hx (by simp)

theorem once_starts_le_one {α : Type} (l : List (OnceEv α)) : (onceRun l).starts ≤ 1 := by
  have h := onceRun_inv l
  rcases hst : (onceRun l).status with _ | n | y
  · exact le_of_eq_of_le (h.1 hst).1 (by omega)
  · exact le_of_eq (h.2.1 n hst).1
  · exact le_of_eq (h.2.2 y hst).1

theorem once_no_fork_starts {α : Type} (l : List (OnceEv α)) (c : OnceCell α)
    (h : OnceEv.fork ∉ l) : (l.foldl onceStep c).starts = c.starts := by
  induction l generalizing c with
  | nil => rfl
  | cons ev l ih =>
    rw [List.mem_cons, not_or] at h
    rw [List.foldl_cons]
    rw [ih _ h.2]
    cases ev with
    | fork => exact absurd rfl h.1
    | complete x =>
      obtain ⟨c0, st, dl⟩ := c
      cases c0 <;> rfl

theorem once_nonidle_mono {α : Type} (l : List (OnceEv α)) (c : OnceCell α)
    (h : c.status ≠ .idle) : (l.foldl onceStep c).status ≠ .idle := by
  induction l generalizing c with
  | nil => exact h
  | cons ev l ih =>
    rw [List.foldl_cons]
    refine ih _ ?_
    obtain ⟨c0, st, dl⟩ := c
    cases ev with
    | fork => cases c0 <;> simp [onceStep]
    | complete x =>
      cases c0 with
      | idle => exact absurd rfl h
      | waiting n => simp [onceStep]
      | done y => simp [onceStep]

theorem once_fork_starts {α : Type} (l : List (OnceEv α)) (h : OnceEv.fork ∈ l) :
    (onceRun l).starts = 1 := by
  have hne : (onceRun l).status ≠ .idle := by
    obtain ⟨l1, l2, rfl⟩ := List.append_of_mem h
    rw [onceRun, List.foldl_append, List.foldl_cons]
    refine once_nonidle_mono l2 _ ?_
    obtain ⟨c0, st, dl⟩ := (l1.foldl onceStep ⟨.idle, 0, []⟩ : OnceCell α)
    cases c0 <;> simp [onceStep]
  have hinv := onceRun_inv l
  rcases hst : (onceRun l).status with _ | n | y
  · exact absurd hst hne
  · exact (hinv.2.1 n hst).1
  · exact (hinv.2.2 y hst).1

/-- Claim C10: `e.once()` returns `IO.of(shared)` for a single shared inner
effect. Forking the returned effect never executes `e`: it succeeds
immediately with the shared `Once` wrapper itself. The underlying execution
of `e` starts only at the first fork of that inner effect — never without a
fork, and exactly once no matter how many forks arrive — and every
subscriber is delivered the one shared result. -/
theorem c10_once_shared (ρ α : Type) (e : Instruction ρ α) (env : ρ)
    (l : List (OnceEv α)) (x : Except α α) :
    ioOnce e = ioOf (Instruction.onceI e) ∧
      Evals env (ioOnce e) (Outcome.succ (Instruction.onceI e)) ∧
      (onceRun l).starts ≤ 1 ∧
      (OnceEv.fork ∈ l → (onceRun l).starts = 1) ∧
      (OnceEv.fork ∉ l → (onceRun l).starts = 0) ∧
      ((onceRun l).status = OnceStatus.done x → ∀ y ∈ (onceRun l).delivered, y = x) := by
  refine ⟨rfl, ⟨2, rfl⟩, once_starts_le_one l, once_fork_starts l, ?_, ?_⟩
  · intro h
    exact once_no_fork_starts l _ h
  · intro h
    exact ((onceRun_inv l).2.2 x h).2
